import Mathlib

/-!
Verification of the PCoA ordination engine
(`skbio/stats/ordination/_principal_coordinate_analysis.py`).

The numeric code is shallowly embedded: numpy float arrays are modelled as
rational-valued matrices/lists (exact arithmetic stands in for IEEE floats;
the two places where float semantics matter — square roots and division by a
zero denominator — are modelled explicitly over `ℝ` and with `Option`).
External primitives (Gower centering from `_utils`, `scipy.linalg.eigh`,
`numpy.linalg.qr`, `numpy.linalg.svd`, `numpy.random.standard_normal`) are
parameters of the embedding, matching the spec's "external collaborators".
-/

/-- Dense real matrix, modelled as an entry function together with its shape
(the shape is what numpy's `.shape` reports; entries outside the shape are
irrelevant junk, as in any function-based matrix model). -/
structure Mat where
  rows : ℕ
  cols : ℕ
  entry : ℕ → ℕ → ℚ

/-- numpy `dot`: matrix product; the inner dimension is the left factor's
column count. -/
def Mat.mul (A B : Mat) : Mat :=
  ⟨A.rows, B.cols, fun i j => ((List.range A.cols).map (fun t => A.entry i t * B.entry t j)).sum⟩

/-- numpy `hstack` of two blocks with the same row count. -/
def Mat.hstackM (A B : Mat) : Mat :=
  ⟨A.rows, A.cols + B.cols, fun i j => if j < A.cols then A.entry i j else B.entry i (j - A.cols)⟩

/-- numpy `.transpose()`. -/
def Mat.transposeM (A : Mat) : Mat :=
  ⟨A.cols, A.rows, fun i j => A.entry j i⟩

/-- Python slice `M[:, :d]` (clamps like Python slicing does). -/
def Mat.takeCols (A : Mat) (d : ℕ) : Mat :=
  ⟨A.rows, min d A.cols, fun i j => A.entry i j⟩

/-- Column selection `M[:, idxs]` by a list of column indices. -/
def Mat.colPerm (A : Mat) (idxs : List ℕ) : Mat :=
  ⟨A.rows, idxs.length, fun i j => A.entry i (idxs.getD j 0)⟩

/-!
The FSVD sketch construction (`_fsvd`, lines 238-266).
-/

/-- Lines 252-257 (the block-Krylov branch before the loop):
`H = dot(A, G)` followed by `H = hstack((H, dot(A, dot(A, H))))`. -/
def sketchBase (A G : Mat) : Mat :=
  let H := A.mul G
  H.hstackM (A.mul (A.mul H))

/-- One iteration of the loop at lines 258-266:
`tmp = dot(A, dot(A, H)); H = hstack((H, dot(A, dot(A, tmp))))`. -/
def sketchStep (A H : Mat) : Mat :=
  let tmp := A.mul (A.mul H)
  H.hstackM (A.mul (A.mul tmp))

/-- The whole `use_power_method=False` branch (lines 249-266): the loop
`for x in range(3, num_levels + 2)` runs `num_levels - 1` times. -/
def fsvdSketchKrylov (A G : Mat) (num_levels : ℕ) : Mat :=
  (List.range (num_levels - 1)).foldl (fun H _ => sketchStep A H) (sketchBase A G)

/-- The `use_power_method=True` branch (lines 238-247): `H = dot(A, G)` then
`H = dot(A, dot(A, H))` once per element of `range(2, num_levels + 2)`,
i.e. `num_levels` times. -/
def fsvdSketchPower (A G : Mat) (num_levels : ℕ) : Mat :=
  (List.range num_levels).foldl (fun H _ => A.mul (A.mul H)) (A.mul G)

/-- External numeric primitives consumed by `_fsvd`:
`standard_normal(size=(n, k))`, `numpy.linalg.qr`, `numpy.linalg.svd`.
They are parameters of the embedding (spec §6: consumed boundary contracts). -/
structure FsvdPrims where
  gauss : ℕ → ℕ → Mat
  qrFac : Mat → Mat × Mat
  svdFac : Mat → Mat × List ℚ × Mat

/-- Shallow embedding of `_fsvd` (lines 218-303).  The only guard in the
source is the squareness check at lines 227-228; `dimension` is modelled as a
natural number (the spec's "optional positive integer").  `.real` at lines
300-301 is the identity in this real-valued model. -/
def fsvd (P : FsvdPrims) (centered_distance_matrix : Mat) (dimension : ℕ)
    (use_power_method : Bool) (num_levels : ℕ) : Except String (List ℚ × Mat) :=
  let m := centered_distance_matrix.rows
  let n := centered_distance_matrix.cols
  if m ≠ n then
    Except.error "FSVD.run(...) expects square distance matrix"
  else
    let k := dimension + 2
    let G := P.gauss n k
    let H := if use_power_method then
        fsvdSketchPower centered_distance_matrix G num_levels
      else
        fsvdSketchKrylov centered_distance_matrix G num_levels
    let Q := (P.qrFac H).1
    let T := centered_distance_matrix.mul Q
    let (Vt, St, W0) := P.svdFac T
    let W := W0.transposeM
    let Ut := Q.mul W
    let Ufsvd := if m < n then Vt.takeCols dimension else Ut.takeCols dimension
    let S := (St.take dimension).map (fun s => s ^ 2)
    Except.ok (S, Ufsvd)

/-!
The post-processing pipeline (`pcoa`, lines 120-174).
-/

/-- Default absolute tolerance of `np.isclose` (1e-8).  For a comparison with
0 the relative term `rtol * abs(0)` vanishes, so `np.isclose(x, 0)` is
`abs x <= atol`. -/
def npAtol : ℚ := 1 / 100000000

/-- Entrywise `np.isclose(eigvals, 0)` (line 120). -/
def isCloseZero (x : ℚ) : Bool := |x| ≤ npAtol

/-- Lines 120-121: snap eigenvalues that are numerically close to 0 to exactly 0. -/
def snapClose (vals : List ℚ) : List ℚ :=
  vals.map (fun v => if isCloseZero v then 0 else v)

/-- Comparison of two positions of `vals` by value; the sort key used by
`eigvals.argsort()`. -/
abbrev idxLe (vals : List ℚ) (i j : ℕ) : Prop := vals.getD i 0 ≤ vals.getD j 0

/-- The model of `eigvals.argsort()`: the indices `0..len-1` sorted so that the values are
ascending (numpy leaves the order among ties unspecified; any correct sort is
a faithful model, we use insertion sort). -/
def argsortAsc (vals : List ℚ) : List ℕ :=
  List.insertionSort (idxLe vals) (List.range vals.length)

/-- Line 137: `idxs_descending = eigvals.argsort()[::-1]`. -/
def argsortDesc (vals : List ℚ) : List ℕ :=
  (argsortAsc vals).reverse

/-- Line 138 applied to the snapped eigenvalues: `eigvals[idxs_descending]`. -/
def sortedEigvals (vals : List ℚ) : List ℚ :=
  (argsortDesc (snapClose vals)).map (fun i => (snapClose vals).getD i 0)

/-- Line 139: `eigvecs[:, idxs_descending]`. -/
def sortedVecs (vals : List ℚ) (V : Mat) : Mat :=
  V.colPerm (argsortDesc (snapClose vals))

/-- Line 146: `num_positive = (eigvals >= 0).sum()` on the sorted snapped
eigenvalues. -/
def numPositiveOf (vals : List ℚ) : ℕ :=
  (sortedEigvals vals).countP (fun v => decide (0 ≤ v))

/-- Zero out all entries of a list from position `cut` on, keeping its length
(the list analogue of `a[cut:] = 0`). -/
def zeroFrom (cut : ℕ) (l : List ℚ) : List ℚ :=
  (List.range l.length).map (fun j => if j < cut then l.getD j 0 else 0)

/-- Line 148: `eigvals[num_positive:] = zeros`. -/
def truncEigvals (vals : List ℚ) : List ℚ :=
  zeroFrom (numPositiveOf vals) (sortedEigvals vals)

/-- Line 147: `eigvecs[:, num_positive:] = zeros`. -/
def truncVecs (vals : List ℚ) (V : Mat) : Mat :=
  ⟨(sortedVecs vals V).rows, (sortedVecs vals V).cols,
    fun i j => if j < numPositiveOf vals then (sortedVecs vals V).entry i j else 0⟩

/-- The artifacts of one `pcoa` call that the engine owns (spec §1: packaging
into the pandas-backed `OrdinationResults` is an external concern).
`propExplained = none` models the NaN vector that float division by a zero
eigenvalue sum produces (line 164); `negWarning` is the `RuntimeWarning` of
lines 122-133; `normalize` records the `normalize_eigenvectors` argument for
the real-valued coordinate stage. -/
structure PcoaResult where
  eigvals : List ℚ
  eigvecs : Mat
  propExplained : Option (List ℚ)
  negWarning : Bool
  normalize : Bool
  axisLabels : List String

/-- Lines 120-148 and 163-166: snapping, warning, sorting, truncation,
proportion explained, axis labels.  `toD` is the (defaulted) `to_dimension`,
used only for the labels, exactly as in the source. -/
def pcoaPost (vals : List ℚ) (V : Mat) (toD : ℕ) (normalize_eigenvectors : Bool) :
    PcoaResult :=
  { eigvals := truncEigvals vals
    eigvecs := truncVecs vals V
    propExplained :=
      if (truncEigvals vals).sum = 0 then none
      else some ((truncEigvals vals).map (fun v => v / (truncEigvals vals).sum))
    negWarning := (snapClose vals).any (fun v => decide (v < 0))
    normalize := normalize_eigenvectors
    axisLabels := (List.range toD).map (fun i => "PC" ++ toString (i + 1)) }

/-- Observable phases of one `pcoa` call, used to state *when* an error is
raised relative to the matrix computations. -/
inductive PcoaStep where
  | centered
  | decomposedEigh
  | decomposedFsvd
deriving DecidableEq

/-- Outcome of a `pcoa` call: which computation phases ran, and either the
result or the message of the raised `ValueError`. -/
structure PcoaOutcome where
  steps : List PcoaStep
  result : Except String PcoaResult

/-- External primitives consumed by `pcoa`: Gower centering
(`center_distance_matrix_optimized`, lives in `_utils`, outside this core) and
the dense symmetric eigensolver (`scipy.linalg.eigh`), plus the `_fsvd`
primitives. -/
structure PcoaPrims where
  center : Mat → Mat
  eigh : Mat → List ℚ × Mat
  fsvdPrims : FsvdPrims

/-- Shallow embedding of `pcoa` (lines 92-174).  Order of operations follows
the source: the distance matrix is centered (line 95) *before* the method
dispatch (lines 105-114); an unrecognized method raises
`ValueError("PCoA eigendecomposition method ... not supported.")` with no
partial result. -/
def pcoa (P : PcoaPrims) (distance_matrix : Mat) (method : String)
    (to_dimension : Option ℕ) (normalize_eigenvectors : Bool) : PcoaOutcome :=
  let A := P.center distance_matrix
  let toD := to_dimension.getD A.rows
  if method = "eigh" then
    let vals := (P.eigh A).1
    let vecs := (P.eigh A).2
    { steps := [PcoaStep.centered, PcoaStep.decomposedEigh]
      result := Except.ok (pcoaPost vals vecs toD normalize_eigenvectors) }
  else if method = "fsvd" then
    match fsvd P.fsvdPrims A toD false 1 with
    | Except.ok (vals, vecs) =>
        { steps := [PcoaStep.centered, PcoaStep.decomposedFsvd]
          result := Except.ok (pcoaPost vals vecs toD normalize_eigenvectors) }
    | Except.error e => { steps := [PcoaStep.centered], result := Except.error e }
  else
    { steps := [PcoaStep.centered]
      result := Except.error
        ("PCoA eigendecomposition method " ++ method ++ " not supported.") }

/-!
The real-valued stages (lines 150-161): eigenvector normalization and the
coordinate matrix, which genuinely need square roots.
-/

/-- Squared Euclidean norm of row `i` of `M` (over its `cols` entries). -/
def rowSqNorm (M : Mat) (i : ℕ) : ℚ :=
  ((List.range M.cols).map (fun t => M.entry i t ^ 2)).sum

/-- Lines 151-153: `np.apply_along_axis(lambda vec: vec / np.linalg.norm(vec),
axis=1, arr=eigvecs)` — each 1-D slice along axis 1 (i.e. each *row*) is
divided by its Euclidean norm.  Rows with a zero norm would produce NaN in
numpy; this model is only used on inputs whose rows are non-zero. -/
noncomputable def rowNormEntry (M : Mat) (i j : ℕ) : ℝ :=
  (M.entry i j : ℝ) / Real.sqrt ((rowSqNorm M i : ℚ) : ℝ)

/-- The eigenvector matrix entering line 161, after the optional
normalization of lines 150-153. -/
noncomputable def finalVecEntry (r : PcoaResult) (i j : ℕ) : ℝ :=
  if r.normalize then rowNormEntry r.eigvecs i j else (r.eigvecs.entry i j : ℝ)

/-- Line 161: `coordinates = eigvecs * np.sqrt(eigvals)` — column `j` of the
eigenvector matrix scaled by the square root of eigenvalue `j`. -/
noncomputable def coordEntry (r : PcoaResult) (i j : ℕ) : ℝ :=
  finalVecEntry r i j * Real.sqrt ((r.eigvals.getD j 0 : ℚ) : ℝ)

/-- Squared Euclidean norm of column `j` of an `ℝ`-valued entry function,
over `rows` rows. -/
noncomputable def colSqNormR (f : ℕ → ℕ → ℝ) (rows j : ℕ) : ℝ :=
  ((List.range rows).map (fun i => f i j ^ 2)).sum

/-- Squared Euclidean norm of row `i` of an `ℝ`-valued entry function, over
`cols` columns. -/
noncomputable def rowSqNormR (f : ℕ → ℕ → ℝ) (cols i : ℕ) : ℝ :=
  ((List.range cols).map (fun t => f i t ^ 2)).sum

/-!
Helper lemmas about the pipeline stages.
-/

theorem snapClose_length (vals : List ℚ) : (snapClose vals).length = vals.length := by
  simp [snapClose]

theorem argsortDesc_length (l : List ℚ) : (argsortDesc l).length = l.length := by
  simp [argsortDesc, argsortAsc]

theorem sortedEigvals_length (vals : List ℚ) :
    (sortedEigvals vals).length = vals.length := by
  simp [sortedEigvals, argsortDesc_length, snapClose_length]

theorem zeroFrom_length (cut : ℕ) (l : List ℚ) : (zeroFrom cut l).length = l.length := by
  simp [zeroFrom]

theorem truncEigvals_length (vals : List ℚ) :
    (truncEigvals vals).length = vals.length := by
  simp [truncEigvals, zeroFrom_length, sortedEigvals_length]

theorem truncVecs_cols (vals : List ℚ) (V : Mat) :
    (truncVecs vals V).cols = vals.length := by
  simp [truncVecs, sortedVecs, Mat.colPerm, argsortDesc_length, snapClose_length]

theorem argsortDesc_perm (l : List ℚ) :
    (argsortDesc l).Perm (List.range l.length) := by
  exact (List.reverse_perm _).trans (List.perm_insertionSort _ _)

theorem argsortDesc_pairwise (l : List ℚ) :
    List.Pairwise (fun i j => l.getD j 0 ≤ l.getD i 0) (argsortDesc l) := by
  haveI : IsTotal ℕ (idxLe l) := ⟨fun a b => le_total _ _⟩
  haveI : IsTrans ℕ (idxLe l) := ⟨fun a b c hab hbc => le_trans hab hbc⟩
  have hs : List.Sorted (idxLe l) (argsortAsc l) :=
    List.sorted_insertionSort (idxLe l) (List.range l.length)
  exact List.pairwise_reverse.mpr hs

theorem sortedEigvals_sorted (vals : List ℚ) :
    List.Sorted (fun a b => b ≤ a) (sortedEigvals vals) := by
  refine List.Pairwise.map _ ?_ (argsortDesc_pairwise (snapClose vals))
  intro i j h
  exact h

theorem getD_map_of_lt {α β : Type} (f : α → β) (d : β) (a : α) :
    ∀ (l : List α) (j : ℕ), j < l.length → (l.map f).getD j d = f (l.getD j a)
  | x :: t, 0, _ => rfl
  | x :: t, j + 1, h => getD_map_of_lt f d a t j (Nat.lt_of_succ_lt_succ h)

theorem range_getD (n j : ℕ) (h : j < n) : (List.range n).getD j 0 = j := by
  simp [List.getD_eq_getElem?_getD, List.getElem?_range, h]

/-- In a descending list, every position below the count of non-negative
entries holds a non-negative entry. -/
theorem sorted_getD_nonneg :
    ∀ (l : List ℚ), List.Pairwise (fun a b => b ≤ a) l →
      ∀ j, j < l.countP (fun v => decide (0 ≤ v)) → 0 ≤ l.getD j 0 := by
  intro l hl
  induction l with
  | nil => intro j hj; simp at hj
  | cons a t ih =>
    rw [List.pairwise_cons] at hl
    intro j hj
    by_cases ha : 0 ≤ a
    · cases j with
      | zero => exact ha
      | succ j' =>
        have hcount : (a :: t).countP (fun v => decide (0 ≤ v))
            = t.countP (fun v => decide (0 ≤ v)) + 1 :=
          List.countP_cons_of_pos _ _ (by simpa using ha)
        rw [hcount] at hj
        exact ih hl.2 j' (Nat.lt_of_succ_lt_succ hj)
    · exfalso
      have hzero : (a :: t).countP (fun v => decide (0 ≤ v)) = 0 := by
        rw [List.countP_eq_zero]
        intro b hb
        simp only [decide_eq_true_eq]
        rcases List.mem_cons.mp hb with hb | hb
        · subst hb; exact ha
        · intro h0b
          exact ha (le_trans h0b (hl.1 b hb))
      rw [hzero] at hj
      exact Nat.not_lt_zero _ hj

theorem truncEigvals_getD_nonneg (vals : List ℚ) (j : ℕ) :
    0 ≤ (truncEigvals vals).getD j 0 := by
  unfold truncEigvals zeroFrom
  by_cases hj : j < (sortedEigvals vals).length
  · rw [getD_map_of_lt _ _ 0 _ j (by simpa using hj), range_getD _ j hj]
    by_cases hcut : j < numPositiveOf vals
    · rw [if_pos hcut]
      exact sorted_getD_nonneg _ (sortedEigvals_sorted vals) j hcut
    · rw [if_neg hcut]
  · rw [List.getD_eq_getElem?_getD, List.getElem?_eq_none (by simpa using hj)]
    rfl

/-- Doubling law for the Krylov-branch loop: each round doubles the column
count of the growing sketch. -/
theorem foldl_sketchStep_cols (A : Mat) :
    ∀ (m : ℕ) (H : Mat),
      ((List.range m).foldl (fun H _ => sketchStep A H) H).cols = H.cols * 2 ^ m := by
  intro m
  induction m with
  | zero => intro H; simp
  | succ m ih =>
    intro H
    rw [List.range_succ, List.foldl_append]
    have hstep : ∀ K : Mat, (sketchStep A K).cols = K.cols * 2 := by
      intro K
      simp [sketchStep, Mat.hstackM, Mat.mul]
      ring
    rw [List.foldl_cons, List.foldl_nil, hstep, ih]
    ring

theorem foldl_sketchStep_rows (A : Mat) :
    ∀ (m : ℕ) (H : Mat),
      ((List.range m).foldl (fun H _ => sketchStep A H) H).rows = H.rows := by
  intro m
  induction m with
  | zero => intro H; simp
  | succ m ih =>
    intro H
    rw [List.range_succ, List.foldl_append, List.foldl_cons, List.foldl_nil]
    have hstep : (sketchStep A ((List.range m).foldl (fun H _ => sketchStep A H) H)).rows
        = ((List.range m).foldl (fun H _ => sketchStep A H) H).rows := rfl
    rw [hstep, ih]

/-!
Concrete instances used to evaluate the definitions.
-/

/-- The 2-by-2 identity matrix. -/
def eye2 : Mat := ⟨2, 2, fun i j => if i = j then 1 else 0⟩

/-- A 1-by-1 matrix, the smallest square input. -/
def oneMat : Mat := ⟨1, 1, fun _ _ => 1⟩

/-- A 1-by-3 probe matrix (the Gaussian probe for `dimension = 1`,
`k = 1 + 2 = 3`). -/
def probe13 : Mat := ⟨1, 3, fun _ _ => 1⟩

/-- A 3-by-3 centered matrix. -/
def zero3 : Mat := ⟨3, 3, fun _ _ => 0⟩

/-- A 2-by-2 distance matrix (two entities at distance 1). -/
def dist2 : Mat := ⟨2, 2, fun i j => if i = j then 0 else 1⟩

/-- The all-zero 2-by-2 distance matrix (two identical entities — the fully
degenerate input). -/
def distZero2 : Mat := ⟨2, 2, fun _ _ => 0⟩

/-- Concrete instantiation of the external `_fsvd` primitives (a specific
probe and trivial factorizations; the claims settled with it do not depend on
the primitives' values). -/
def demoFsvdPrims : FsvdPrims :=
  ⟨fun n k => ⟨n, k, fun _ _ => 1⟩, fun M => (M, M), fun M => (M, List.replicate M.cols 1, M)⟩

/-- Concrete instantiation of the `pcoa` primitives: centering is the
identity on the already-centered demo input and `eigh` returns the two
eigenpairs `(2, e1)` and `(1, e2)`. -/
def demoPrims : PcoaPrims :=
  ⟨fun M => M, fun _ => ([2, 1], eye2), demoFsvdPrims⟩

/-- Primitives for the degenerate input: Gower centering of the all-zero
distance matrix is the all-zero matrix, whose exact eigendecomposition is two
zero eigenvalues with the identity eigenvector basis. -/
def degPrims : PcoaPrims :=
  ⟨fun _ => distZero2, fun _ => ([0, 0], eye2), demoFsvdPrims⟩

/-- The eigenvector matrix `[[3, 4], [0, 5]]`: both rows have Euclidean norm
5, so the row-wise normalization of lines 151-153 is exactly representable. -/
def vecs34 : Mat :=
  ⟨2, 2, fun i j => if i = 0 then (if j = 0 then 3 else 4) else (if j = 0 then 0 else 5)⟩

/-!
Claim C1.
-/

/-- C1 counterexample: requesting `target_dimension = n` on the approximate
path does **not** fail — `_fsvd` on a 3-by-3 centered matrix with
`dimension = 3` returns a result, raising no error at all (the claim says the
call must fail with `InvalidRank` before the decomposition). -/
theorem c1_counterexample :
    (fsvd demoFsvdPrims zero3 3 false 1).isOk = true := by
  rfl

/-- C1 (amended): the approximate path performs no rank validation at all —
`_fsvd` raises an error exactly when the input matrix is non-square,
regardless of the requested dimension (so `target_dimension = n`,
`target_dimension > n`, and `target_dimension = 0` all proceed to the
decomposition). -/
theorem c1_fsvd_error_iff_nonsquare (P : FsvdPrims) (A : Mat) (d : ℕ)
    (up : Bool) (L : ℕ) :
    (fsvd P A d up L).isOk = decide (A.rows = A.cols) := by
  by_cases h : A.rows = A.cols
  · simp only [fsvd, h, ne_eq, not_true_eq_false, if_false, decide_eq_true_eq]
    rfl
  · simp only [fsvd, ne_eq, h, not_false_eq_true, if_true]
    rfl

/-!
Claim C2.
-/

/-- C2 counterexample: a misspelled method string does fail, but only *after*
the distance matrix has been centered — the centering phase is in the
executed step list of the failed call (the claim says the error is raised
before any matrix computation, centering included). -/
theorem c2_counterexample :
    (pcoa demoPrims dist2 "eigg" none false).result.isOk = false
    ∧ PcoaStep.centered ∈ (pcoa demoPrims dist2 "eigg" none false).steps := by
  constructor
  · rfl
  · decide

/-- C2 (amended): for every method value other than `"eigh"` and `"fsvd"`,
`pcoa` fails with the unsupported-method `ValueError` at the dispatch point —
after the distance matrix has been centered but before any decomposition is
attempted — and produces no partial result. -/
theorem c2_unsupported_method (P : PcoaPrims) (D : Mat) (toDim : Option ℕ)
    (nrm : Bool) (method : String)
    (h1 : method ≠ "eigh") (h2 : method ≠ "fsvd") :
    (pcoa P D method toDim nrm).steps = [PcoaStep.centered]
    ∧ (pcoa P D method toDim nrm).result
        = Except.error ("PCoA eigendecomposition method " ++ method ++ " not supported.") := by
  constructor <;> simp [pcoa, h1, h2]

/-- C2 witness: the amended statement evaluated at the concrete method string
`"banana"`. -/
theorem c2_unsupported_method_witness :
    (("banana" : String) ≠ "eigh" ∧ ("banana" : String) ≠ "fsvd")
    ∧ ((pcoa demoPrims dist2 "banana" none false).steps = [PcoaStep.centered]
      ∧ (pcoa demoPrims dist2 "banana" none false).result
          = Except.error ("PCoA eigendecomposition method " ++ "banana" ++ " not supported.")) :=
  ⟨⟨by decide, by decide⟩,
    c2_unsupported_method demoPrims dist2 none false "banana" (by decide) (by decide)⟩

/-!
Claim C3.
-/

/-- C3 counterexample: with `num_levels = 2` and a `k = 3`-column probe on a
1-by-1 matrix, the block-Krylov sketch `H` has `12 = k * 2 ^ num_levels`
columns, not the claimed `k * (num_levels + 1) = 9` — each loop round appends
a block as wide as the *whole* current `H`, doubling it. -/
theorem c3_counterexample :
    (fsvdSketchKrylov oneMat probe13 2).cols = 12 ∧ (12 : ℕ) ≠ 3 * (2 + 1) := by
  constructor
  · rfl
  · decide

/-- C3 (amended): in the `use_power_method=False` branch, `H` starts as the
two-block matrix `[A·G, A·(A·(A·G))]`; each of the remaining
`num_levels - 1` loop rounds computes `tmp = A·(A·H)` and appends
`A·(A·tmp)` — a block as wide as the whole current `H` — so for
`num_levels ≥ 1` the final sketch has `A.rows` rows and
`k * 2 ^ num_levels` columns (`k` the probe width), and each later level is
obtained from the previous one by one such append step. -/
theorem c3_sketch_shape (A G : Mat) (L : ℕ) (hL : 1 ≤ L) :
    (fsvdSketchKrylov A G L).rows = A.rows
    ∧ (fsvdSketchKrylov A G L).cols = G.cols * 2 ^ L
    ∧ fsvdSketchKrylov A G (L + 1) = sketchStep A (fsvdSketchKrylov A G L) := by
  obtain ⟨m, rfl⟩ : ∃ m, L = m + 1 := ⟨L - 1, (Nat.succ_pred_eq_of_pos hL).symm⟩
  refine ⟨?_, ?_, ?_⟩
  · unfold fsvdSketchKrylov
    rw [foldl_sketchStep_rows]
    rfl
  · unfold fsvdSketchKrylov
    rw [foldl_sketchStep_cols]
    have hbase : (sketchBase A G).cols = G.cols * 2 := by
      simp [sketchBase, Mat.hstackM, Mat.mul]
      ring
    rw [hbase]
    have : m + 1 - 1 = m := rfl
    rw [this]
    ring
  · unfold fsvdSketchKrylov
    have h1 : m + 1 + 1 - 1 = m + 1 := rfl
    have h2 : m + 1 - 1 = m := rfl
    rw [h1, h2, List.range_succ, List.foldl_append, List.foldl_cons, List.foldl_nil]

/-- C3 witness: the amended statement evaluated at `num_levels = 1` on the
concrete 1-by-1 input with the 3-column probe. -/
theorem c3_sketch_shape_witness :
    (1 ≤ 1)
    ∧ ((fsvdSketchKrylov oneMat probe13 1).rows = oneMat.rows
      ∧ (fsvdSketchKrylov oneMat probe13 1).cols = probe13.cols * 2 ^ 1
      ∧ fsvdSketchKrylov oneMat probe13 2 = sketchStep oneMat (fsvdSketchKrylov oneMat probe13 1)) :=
  ⟨by decide, c3_sketch_shape oneMat probe13 1 (by decide)⟩

/-!
Claim C4.
-/

/-- C4: on the exact (`"eigh"`) path the pipeline returns exactly `n`
eigenvalue/coordinate axes — `n` the number of eigenpairs the dense
eigensolver produces for the centered matrix — for *every* caller-supplied
`to_dimension`, and the numeric artifacts (eigenvalues and eigenvectors) are
identical to those of the defaulted call: no truncation to fewer axes happens
on that path. -/
theorem c4_exact_path_all_axes (P : PcoaPrims) (D : Mat) (toDim : Option ℕ)
    (nrm : Bool) (n : ℕ) (hn : (P.eigh (P.center D)).1.length = n) :
    ((pcoa P D "eigh" toDim nrm).result.map (fun r => r.eigvals.length) = Except.ok n)
    ∧ ((pcoa P D "eigh" toDim nrm).result.map (fun r => r.eigvecs.cols) = Except.ok n)
    ∧ ((pcoa P D "eigh" toDim nrm).result.map PcoaResult.eigvals
        = (pcoa P D "eigh" none nrm).result.map PcoaResult.eigvals)
    ∧ ((pcoa P D "eigh" toDim nrm).result.map PcoaResult.eigvecs
        = (pcoa P D "eigh" none nrm).result.map PcoaResult.eigvecs) := by
  refine ⟨?_, ?_, ?_, ?_⟩
  · simp [pcoa, pcoaPost, Except.map, truncEigvals_length, hn]
  · simp [pcoa, pcoaPost, Except.map, truncVecs_cols, hn]
  · simp [pcoa, pcoaPost, Except.map]
  · simp [pcoa, pcoaPost, Except.map]

/-- C4 witness: the concrete exact-path call on a 2-entity distance matrix
with `to_dimension = 1` still carries both axes. -/
theorem c4_exact_path_all_axes_witness :
    ((demoPrims.eigh (demoPrims.center dist2)).1.length = 2)
    ∧ (((pcoa demoPrims dist2 "eigh" (some 1) false).result.map
          (fun r => r.eigvals.length) = Except.ok 2)
      ∧ ((pcoa demoPrims dist2 "eigh" (some 1) false).result.map
          (fun r => r.eigvecs.cols) = Except.ok 2)
      ∧ ((pcoa demoPrims dist2 "eigh" (some 1) false).result.map PcoaResult.eigvals
          = (pcoa demoPrims dist2 "eigh" none false).result.map PcoaResult.eigvals)
      ∧ ((pcoa demoPrims dist2 "eigh" (some 1) false).result.map PcoaResult.eigvecs
          = (pcoa demoPrims dist2 "eigh" none false).result.map PcoaResult.eigvecs)) :=
  ⟨by decide, c4_exact_path_all_axes demoPrims dist2 (some 1) false 2 (by decide)⟩

/-!
Claim C6.
-/

/-- C6: on the fully degenerate input (all-identical entities: the all-zero
2-by-2 distance matrix, whose centered matrix has eigenvalues `[0, 0]`) the
call completes with no reported error, and the proportion-explained vector is
the undefined NaN result of dividing by the zero eigenvalue sum (modelled as
`none`) — neither a zero-filled vector nor an error, contradicting the
claim's required well-defined outcome. -/
theorem c6_degenerate_sum_nan :
    ((pcoa degPrims distZero2 "eigh" none false).result.map PcoaResult.propExplained
      = Except.ok none)
    ∧ (pcoa degPrims distZero2 "eigh" none false).result.isOk = true := by
  constructor
  · with_unfolding_all rfl
  · rfl

/-!
Claim C7.
-/

/-- C7: the negative-eigenvalue diagnostic is emitted if and only if some
eigenvalue is still strictly negative after zero-snapping, and in either case
the pipeline runs to completion (the result keeps one axis per input
eigenvalue). -/
theorem c7_warning_iff_negative (vals : List ℚ) (V : Mat) (toD : ℕ) (nrm : Bool) :
    ((pcoaPost vals V toD nrm).negWarning = true ↔ ∃ x ∈ snapClose vals, x < 0)
    ∧ (pcoaPost vals V toD nrm).eigvals.length = vals.length := by
  constructor
  · simp [pcoaPost, List.any_eq_true]
  · simp [pcoaPost, truncEigvals_length]

/-!
Claim C8.
-/

/-- C8: every axis at or beyond `num_positive` has its eigenvalue, its
eigenvector column, and hence its coordinate column forced to exactly zero,
while the output keeps one axis per input eigenvalue (the axis count does not
shrink). -/
theorem c8_truncation_invariant (vals : List ℚ) (V : Mat) (toD j : ℕ)
    (hj : numPositiveOf vals ≤ j) :
    (pcoaPost vals V toD false).eigvals.getD j 0 = 0
    ∧ (∀ i, (pcoaPost vals V toD false).eigvecs.entry i j = 0)
    ∧ (∀ i, coordEntry (pcoaPost vals V toD false) i j = 0)
    ∧ (pcoaPost vals V toD false).eigvals.length = vals.length := by
  have hnot : ¬ j < numPositiveOf vals := Nat.not_lt.mpr hj
  have hvec : ∀ i, (pcoaPost vals V toD false).eigvecs.entry i j = 0 := by
    intro i
    simp [pcoaPost, truncVecs, hnot]
  have hval : (pcoaPost vals V toD false).eigvals.getD j 0 = 0 := by
    show (truncEigvals vals).getD j 0 = 0
    unfold truncEigvals zeroFrom
    by_cases hlen : j < (sortedEigvals vals).length
    · rw [getD_map_of_lt _ _ 0 _ j (by simpa using hlen), range_getD _ j hlen, if_neg hnot]
    · rw [List.getD_eq_getElem?_getD, List.getElem?_eq_none (by simpa using hlen)]
      rfl
  refine ⟨hval, hvec, ?_, by simp [pcoaPost, truncEigvals_length]⟩
  intro i
  unfold coordEntry finalVecEntry
  have hnrm : (pcoaPost vals V toD false).normalize = false := rfl
  rw [hnrm]
  simp [hvec i]

/-- C8 witness: the truncation invariant evaluated on the concrete
eigenvalue list `[1, -1]` at the axis `j = 1` (the negative axis). -/
theorem c8_truncation_invariant_witness :
    numPositiveOf [1, -1] ≤ 1
    ∧ ((pcoaPost [1, -1] eye2 4 false).eigvals.getD 1 0 = 0
      ∧ (∀ i, (pcoaPost [1, -1] eye2 4 false).eigvecs.entry i 1 = 0)
      ∧ (∀ i, coordEntry (pcoaPost [1, -1] eye2 4 false) i 1 = 0)
      ∧ (pcoaPost [1, -1] eye2 4 false).eigvals.length = ([1, -1] : List ℚ).length) :=
  ⟨by with_unfolding_all decide, c8_truncation_invariant [1, -1] eye2 4 1 (by with_unfolding_all decide)⟩

/-!
Claim C9.
-/

/-- C9: the pipeline sorts the (snapped) eigenvalues into descending order by
an explicit index permutation `idxs_descending` — a permutation of
`0..n-1` — and permutes the eigenvector columns by the identical permutation,
so output axis `j` carries eigenvalue `eigvals[idxs[j]]` paired with
eigenvector column `idxs[j]` of the solver output. -/
theorem c9_sort_paired (vals : List ℚ) (V : Mat) :
    List.Sorted (fun a b => b ≤ a) (sortedEigvals vals)
    ∧ (argsortDesc (snapClose vals)).Perm (List.range vals.length)
    ∧ (∀ j, j < vals.length →
        (sortedEigvals vals).getD j 0
          = (snapClose vals).getD ((argsortDesc (snapClose vals)).getD j 0) 0)
    ∧ (∀ i j, (sortedVecs vals V).entry i j
        = V.entry i ((argsortDesc (snapClose vals)).getD j 0)) := by
  refine ⟨sortedEigvals_sorted vals, ?_, ?_, ?_⟩
  · have h := argsortDesc_perm (snapClose vals)
    rwa [snapClose_length] at h
  · intro j hj
    have hlen : j < (argsortDesc (snapClose vals)).length := by
      rw [argsortDesc_length, snapClose_length]
      exact hj
    exact getD_map_of_lt _ _ 0 _ j hlen
  · intro i j
    rfl

/-- C9 witness: the sorting contract evaluated on the concrete eigenvalue
list `[0, 3]` (which the solver may deliver ascending). -/
theorem c9_sort_paired_witness :
    List.Sorted (fun a b => b ≤ a) (sortedEigvals [0, 3])
    ∧ (argsortDesc (snapClose [0, 3])).Perm (List.range 2)
    ∧ ((sortedEigvals [0, 3]).getD 0 0
        = (snapClose [0, 3]).getD ((argsortDesc (snapClose [0, 3])).getD 0 0) 0)
    ∧ ((sortedVecs [0, 3] eye2).entry 0 1
        = eye2.entry 0 ((argsortDesc (snapClose [0, 3])).getD 1 0)) := by
  obtain ⟨h1, h2, h3, h4⟩ := c9_sort_paired [0, 3] eye2
  exact ⟨h1, h2, h3 0 (by decide), h4 0 1⟩

/-!
Claim C10.
-/

/-- C10: every eigenvalue in the returned result is non-negative — after
snapping, descending sort, and truncation the first `num_positive` positions
hold the non-negative eigenvalues and all later positions are zeroed, so the
per-axis square root in the coordinate derivation is never applied to a
negative number (the post-processing is shared by the exact and approximate
paths). -/
theorem c10_eigvals_nonneg (vals : List ℚ) (V : Mat) (toD : ℕ) (nrm : Bool)
    (x : ℚ) (hx : x ∈ (pcoaPost vals V toD nrm).eigvals) : 0 ≤ x := by
  have hx' : x ∈ truncEigvals vals := hx
  unfold truncEigvals zeroFrom at hx'
  obtain ⟨j, hj, hxj⟩ := List.mem_map.mp hx'
  by_cases hcut : j < numPositiveOf vals
  · rw [if_pos hcut] at hxj
    subst hxj
    exact sorted_getD_nonneg _ (sortedEigvals_sorted vals) j hcut
  · rw [if_neg hcut] at hxj
    subst hxj
    exact le_refl 0

/-- C10 witness: the retained eigenvalue `4` of the concrete input `[4, -1]`
is non-negative. -/
theorem c10_eigvals_nonneg_witness :
    (4 : ℚ) ∈ (pcoaPost [4, -1] eye2 2 false).eigvals ∧ (0 : ℚ) ≤ 4 :=
  ⟨by with_unfolding_all decide, c10_eigvals_nonneg [4, -1] eye2 2 false 4 (by with_unfolding_all decide)⟩

/-!
Claim C5.
-/

/-- C5: the normalization of lines 151-153 divides each *row* of the
eigenvector matrix by its norm (`np.apply_along_axis` with `axis=1`), not
each eigenvector (the eigenvectors are the *columns*: they are what the
sorting, truncation and coordinate scaling act on).  On the concrete matrix
`[[3, 4], [0, 5]]` the normalized first eigenvector (column 0) has squared
norm `9/25 ≠ 1`, while the first *row* does come out with unit norm — so an
eigenvector entering the coordinate computation does not have unit Euclidean
norm, contradicting the claim and the function's own docstring. -/
theorem c5_normalize_rows_not_eigenvectors :
    colSqNormR (rowNormEntry vecs34) 2 0 = 9 / 25
    ∧ ((9 : ℝ) / 25) ≠ 1
    ∧ rowSqNormR (rowNormEntry vecs34) 2 0 = 1 := by
  have e00 : vecs34.entry 0 0 = 3 := rfl
  have e01 : vecs34.entry 0 1 = 4 := rfl
  have e10 : vecs34.entry 1 0 = 0 := rfl
  have hq0 : rowSqNorm vecs34 0 = 25 := by with_unfolding_all decide
  have hq1 : rowSqNorm vecs34 1 = 25 := by with_unfolding_all decide
  have h5 : Real.sqrt ((25 : ℚ) : ℝ) = 5 := by
    have h : ((25 : ℚ) : ℝ) = 5 ^ 2 := by norm_num
    rw [h, Real.sqrt_sq (by norm_num : (0 : ℝ) ≤ 5)]
  have r00 : rowNormEntry vecs34 0 0 = 3 / 5 := by
    unfold rowNormEntry
    rw [hq0, h5, e00]
    norm_num
  have r01 : rowNormEntry vecs34 0 1 = 4 / 5 := by
    unfold rowNormEntry
    rw [hq0, h5, e01]
    norm_num
  have r10 : rowNormEntry vecs34 1 0 = 0 := by
    unfold rowNormEntry
    rw [hq1, h5, e10]
    norm_num
  have hrange : List.range 2 = [0, 1] := rfl
  refine ⟨?_, by norm_num, ?_⟩
  · unfold colSqNormR
    rw [hrange]
    simp [r00, r10]
    norm_num
  · unfold rowSqNormR
    rw [hrange]
    simp [r00, r01]
    norm_num
